import Mathlib

/-!
Shallow embedding of the sudoku-shapes game engine (src/main.rs).

The board is a 9x9 grid of booleans indexed as in the Rust source:
the first index is the index into the outer array (the "row" of the
row-clear pass), the second the index into the inner array (the
"column" of the column-clear pass).  The score is a u64 in the source,
modelled as a Nat (the source only ever adds 9 to it).  Randomness is
injected: Piece.random takes the freshly drawn 3x3 mask as a
parameter, and Sudoku.place takes the mask of the replacement piece as
a parameter, so that the state transition itself is a pure function.

Out-of-range board indexing panics in Rust; the embedding's getCell
and setCell treat an out-of-range access as reading false / doing
nothing.  All theorems about legal/place carry the position bounds
x <= 6 and y <= 6 (the reachable-state invariant), under which every
access made by the source is in range, so the divergence is never
exercised.
-/

abbrev Board := Fin 9 → Fin 9 → Bool
abbrev Shape := Fin 3 → Fin 3 → Bool

inductive Direction where
  | Up
  | Down
  | Left
  | Right
deriving DecidableEq

structure Piece where
  x : Nat
  y : Nat
  shape : Shape
deriving DecidableEq

structure Sudoku where
  board : Board
  score : Nat
  curr : Piece
deriving DecidableEq

/-- Piece::random, with the randomly drawn mask injected as a parameter:
the position of a freshly generated piece is always (0, 0). -/
def Piece.random (shape : Shape) : Piece :=
  { x := 0, y := 0, shape := shape }

/-- Sudoku::new, with the mask of the initial random piece injected. -/
def Sudoku.new (shape : Shape) : Sudoku :=
  { board := fun _ _ => false, score := 0, curr := Piece.random shape }

/-- Sudoku::shift: move the active piece one cell in the given direction,
clamped so that x and y stay in [0, 9 - 3]. -/
def Sudoku.shift (s : Sudoku) (dir : Direction) : Sudoku :=
  match dir with
  | .Up => if s.curr.y > 0 then { s with curr := { s.curr with y := s.curr.y - 1 } } else s
  | .Down => if s.curr.y < 9 - 3 then { s with curr := { s.curr with y := s.curr.y + 1 } } else s
  | .Left => if s.curr.x > 0 then { s with curr := { s.curr with x := s.curr.x - 1 } } else s
  | .Right => if s.curr.x < 9 - 3 then { s with curr := { s.curr with x := s.curr.x + 1 } } else s

/-- Read board[x][y]; an out-of-range read (a panic in Rust) yields false. -/
def getCell (b : Board) (x y : Nat) : Bool :=
  if h : x < 9 ∧ y < 9 then b ⟨x, h.1⟩ ⟨y, h.2⟩ else false

/-- Write board[x][y] := v; an out-of-range write (a panic in Rust) is a no-op. -/
def setCell (b : Board) (x y : Nat) (v : Bool) : Board :=
  fun p q => if p.val = x ∧ q.val = y then v else b p q

/-- Sudoku::legal: every occupied cell of the active piece's mask must map
to an unoccupied board cell at the piece's current offset. -/
def Sudoku.legal (s : Sudoku) : Bool :=
  (List.finRange 3).all fun i =>
    (List.finRange 3).all fun j =>
      !(s.curr.shape i j && getCell s.board (s.curr.x + i.val) (s.curr.y + j.val))

/-- The copy step of Sudoku::place: set every occupied mask cell in the board. -/
def placeShape (b : Board) (p : Piece) : Board :=
  (List.finRange 3).foldl
    (fun acc i =>
      (List.finRange 3).foldl
        (fun acc2 j =>
          if p.shape i j then setCell acc2 (p.x + i.val) (p.y + j.val) true else acc2)
        acc)
    b

/-- Row i is fully occupied: board[i].iter().all(|&filled| filled). -/
def rowFull (b : Board) (i : Fin 9) : Bool :=
  (List.finRange 9).all fun j => b i j

/-- Clear row i: board[i] = [false; 9]. -/
def clearRow (b : Board) (i : Fin 9) : Board :=
  fun p q => if p = i then false else b p q

/-- One iteration of the row-clear loop of Sudoku::place. -/
def rowStep (st : Board × Nat) (i : Fin 9) : Board × Nat :=
  if rowFull st.1 i then (clearRow st.1 i, st.2 + 9) else st

/-- The row-clear loop of Sudoku::place: rows 0..9 in order. -/
def rowPass (st : Board × Nat) : Board × Nat :=
  (List.finRange 9).foldl rowStep st

/-- Column j is fully occupied: board.iter().all(|row| row[j]). -/
def colFull (b : Board) (j : Fin 9) : Bool :=
  (List.finRange 9).all fun i => b i j

/-- Clear column j: board[i][j] = false for every i. -/
def clearCol (b : Board) (j : Fin 9) : Board :=
  fun p q => if q = j then false else b p q

/-- One iteration of the column-clear loop of Sudoku::place. -/
def colStep (st : Board × Nat) (j : Fin 9) : Board × Nat :=
  if colFull st.1 j then (clearCol st.1 j, st.2 + 9) else st

/-- The column-clear loop of Sudoku::place: columns 0..9 in order. -/
def colPass (st : Board × Nat) : Board × Nat :=
  (List.finRange 9).foldl colStep st

/-- The board cell in row band i, offset k (the cell board[i*3+k][...]). -/
def blockCell (i k : Fin 3) : Fin 9 :=
  ⟨3 * i.val + k.val, by have hi := i.isLt; have hk := k.isLt; omega⟩

/-- The 3x3 block an index belongs to. -/
def blockOf (p : Fin 9) : Fin 3 :=
  ⟨p.val / 3, by have := p.isLt; omega⟩

/-- Block (i, j) is fully occupied: rows i*3..i*3+3, columns j*3..j*3+3. -/
def blockFull (b : Board) (i j : Fin 3) : Bool :=
  (List.finRange 3).all fun k =>
    (List.finRange 3).all fun l => b (blockCell i k) (blockCell j l)

/-- Clear block (i, j): board[i*3+k][j*3+l] = false for k, l in 0..3. -/
def clearBlock (b : Board) (i j : Fin 3) : Board :=
  fun p q => if blockOf p = i ∧ blockOf q = j then false else b p q

/-- One iteration of the block-clear loop of Sudoku::place. -/
def blockStep (st : Board × Nat) (ij : Fin 3 × Fin 3) : Board × Nat :=
  if blockFull st.1 ij.1 ij.2 then (clearBlock st.1 ij.1 ij.2, st.2 + 9) else st

/-- The iteration order of the two nested block loops of Sudoku::place. -/
def blockList : List (Fin 3 × Fin 3) :=
  [(0, 0), (0, 1), (0, 2), (1, 0), (1, 1), (1, 2), (2, 0), (2, 1), (2, 2)]

/-- The block-clear loop of Sudoku::place. -/
def blockPass (st : Board × Nat) : Board × Nat :=
  blockList.foldl blockStep st

/-- Sudoku::place: if the position is legal, copy the mask into the board,
run the row-, column- and block-clear loops in that order (each threading
the board and score left by the previous one), and replace the piece by a
freshly generated one; otherwise do nothing. -/
def Sudoku.place (s : Sudoku) (fresh : Shape) : Sudoku :=
  if s.legal then
    { board := (blockPass (colPass (rowPass (placeShape s.board s.curr, s.score)))).1,
      score := (blockPass (colPass (rowPass (placeShape s.board s.curr, s.score)))).2,
      curr := Piece.random fresh }
  else s

/-! Spec-side definitions, following the words of the specification: each
clear pass clears every region that is fully occupied in the board it is
handed, awarding 9 points per cleared region, and the copy step sets
exactly the cells covered by an occupied mask cell. -/

/-- Clear every fully occupied row, simultaneously (spec wording of the row pass). -/
def clearFullRows (b : Board) : Board :=
  fun p q => if rowFull b p then false else b p q

/-- Clear every fully occupied column, simultaneously (spec wording of the column pass). -/
def clearFullCols (b : Board) : Board :=
  fun p q => if colFull b q then false else b p q

/-- Clear every fully occupied block, simultaneously (spec wording of the block pass). -/
def clearFullBlocks (b : Board) : Board :=
  fun p q => if blockFull b (blockOf p) (blockOf q) then false else b p q

/-- Number of fully occupied rows. -/
def countFullRows (b : Board) : Nat :=
  ((List.finRange 9).filter fun i => rowFull b i).length

/-- Number of fully occupied columns. -/
def countFullCols (b : Board) : Nat :=
  ((List.finRange 9).filter fun j => colFull b j).length

/-- Number of fully occupied blocks. -/
def countFullBlocks (b : Board) : Nat :=
  (blockList.filter fun ij => blockFull b ij.1 ij.2).length

/-- The piece covers board cell (x, y) with an occupied mask cell. -/
def maskCovers (p : Piece) (x y : Fin 9) : Bool :=
  decide (∃ i j : Fin 3, p.shape i j = true ∧ x.val = p.x + i.val ∧ y.val = p.y + j.val)

/-- Spec wording of the copy step: a cell is occupied after the copy iff it
was occupied before or an occupied mask cell covers it. -/
def specCopy (b : Board) (p : Piece) : Board :=
  fun x y => b x y || maskCovers p x y

/-! Reachable game states: the initial state, closed under shift and place. -/

inductive Reachable : Sudoku → Prop
  | new (shape : Shape) : Reachable (Sudoku.new shape)
  | shift (s : Sudoku) (d : Direction) : Reachable s → Reachable (s.shift d)
  | place (s : Sudoku) (f : Shape) : Reachable s → Reachable (s.place f)

/-- What shift does to the x coordinate, as a function of the direction and
the old x coordinate alone (mirrors the match arms of Sudoku::shift). -/
def shiftX (dir : Direction) (x : Nat) : Nat :=
  match dir with
  | .Left => if x > 0 then x - 1 else x
  | .Right => if x < 9 - 3 then x + 1 else x
  | _ => x

/-- What shift does to the y coordinate, as a function of the direction and
the old y coordinate alone (mirrors the match arms of Sudoku::shift). -/
def shiftY (dir : Direction) (y : Nat) : Nat :=
  match dir with
  | .Up => if y > 0 then y - 1 else y
  | .Down => if y < 9 - 3 then y + 1 else y
  | _ => y

/-! Concrete states used as witnesses and counterexamples. -/

/-- A mask with a single occupied cell, at mask position (0, 0). -/
def wShape1 : Shape := fun i j => decide (i.val = 0 ∧ j.val = 0)

/-- The fully occupied 3x3 mask. -/
def wShapeT : Shape := fun _ _ => true

/-- A board on which placing the full 3x3 mask at (0, 0) simultaneously
completes row 0, column 0 and block (0, 0): occupied cells are the tail of
row 0 and the tail of column 0. -/
def exBoard1 : Board :=
  fun p q => decide (p.val = 0 ∧ 3 ≤ q.val) || decide (q.val = 0 ∧ 3 ≤ p.val)

/-- State whose placement completes one row, one column and one block at once. -/
def exS1 : Sudoku :=
  { board := exBoard1, score := 0, curr := { x := 0, y := 0, shape := wShapeT } }

/-- A state with a fully occupied row 0 whose active piece overlaps the
board, so that place() is an illegal no-op. -/
def exS10 : Sudoku :=
  { board := fun p _ => decide (p.val = 0), score := 0,
    curr := { x := 0, y := 0, shape := wShape1 } }

/-- A state in which row 3 has 8 of 9 cells occupied and the single occupied
mask cell fills the missing cell (3, 8). -/
def exC7 : Sudoku :=
  { board := fun p q => decide (p.val = 3 ∧ q.val ≤ 7), score := 5,
    curr := { x := 3, y := 6, shape := fun i j => decide (i.val = 0 ∧ j.val = 2) } }

/-! A generic account of the three clear loops.  Each loop walks a list of
regions (rows, columns or blocks); a step clears its region and adds 9 when
the region is fully occupied in the current board.  Regions of one pass are
pairwise disjoint (each cell belongs to exactly one region, given by
regionOf), so the loop is equivalent to clearing, simultaneously, every
region that was full in the board the pass started from. -/

def clearRegion {ι : Type} [DecidableEq ι] (regionOf : Fin 9 → Fin 9 → ι)
    (b : Board) (i : ι) : Board :=
  fun p q => if regionOf p q = i then false else b p q

def regionStep {ι : Type} [DecidableEq ι] (regionOf : Fin 9 → Fin 9 → ι)
    (fullR : Board → ι → Bool) (st : Board × Nat) (i : ι) : Board × Nat :=
  if fullR st.1 i then (clearRegion regionOf st.1 i, st.2 + 9) else st

theorem regionFold_eq {ι : Type} [DecidableEq ι] (regionOf : Fin 9 → Fin 9 → ι)
    (fullR : Board → ι → Bool)
    (hfull : ∀ (c c' : Board) (i : ι), (∀ p q, regionOf p q = i → c p q = c' p q) →
      fullR c i = fullR c' i)
    (l : List ι) (hl : l.Nodup) (b : Board) (sc : Nat) :
    l.foldl (regionStep regionOf fullR) (b, sc)
      = (fun p q => if regionOf p q ∈ l ∧ fullR b (regionOf p q) then false else b p q,
         sc + 9 * (l.filter fun i => fullR b i).length) := by
  induction l generalizing b sc with
  | nil => simp
  | cons i t ih =>
    obtain ⟨hit, ht⟩ := List.nodup_cons.mp hl
    have hclear : ∀ j : ι, j ≠ i → fullR (clearRegion regionOf b i) j = fullR b j := by
      intro j hj
      apply hfull
      intro p q hpq
      unfold clearRegion
      rw [if_neg (by rw [hpq]; exact hj)]
    rw [List.foldl_cons]
    by_cases hfi : fullR b i = true
    · have hstep : regionStep regionOf fullR (b, sc) i = (clearRegion regionOf b i, sc + 9) := by
        simp [regionStep, hfi]
      rw [hstep, ih ht]
      have hfilter : (t.filter fun j => fullR (clearRegion regionOf b i) j)
          = t.filter fun j => fullR b j := by
        apply List.filter_congr
        intro j hj
        exact hclear j (fun h => hit (h ▸ hj))
      rw [Prod.mk.injEq]
      refine ⟨?_, ?_⟩
      · funext p q
        by_cases hri : regionOf p q = i
        · simp [clearRegion, hri, hit, hfi]
        · simp [clearRegion, hri, hclear _ hri]
      · rw [hfilter, List.filter_cons, if_pos hfi]
        simp only [List.length_cons]
        omega
    · have hstep : regionStep regionOf fullR (b, sc) i = (b, sc) := by
        simp [regionStep, hfi]
      rw [hstep, ih ht]
      rw [Prod.mk.injEq]
      refine ⟨?_, ?_⟩
      · funext p q
        by_cases hri : regionOf p q = i
        · simp [hri, hit, hfi]
        · simp [hri]
      · rw [List.filter_cons, if_neg (by simp [hfi])]

theorem rowStep_eq : rowStep = regionStep (fun p _ => p) rowFull := by
  funext st i
  rfl

theorem colStep_eq : colStep = regionStep (fun _ q => q) colFull := by
  funext st j
  rfl

theorem blockOf_blockCell (i k : Fin 3) : blockOf (blockCell i k) = i := by
  apply Fin.ext
  unfold blockOf blockCell
  dsimp only
  have hk := k.isLt
  omega

theorem blockStep_eq :
    blockStep = regionStep (fun p q => (blockOf p, blockOf q))
      (fun c ij => blockFull c ij.1 ij.2) := by
  funext st ij
  obtain ⟨i, j⟩ := ij
  unfold blockStep regionStep
  dsimp only
  by_cases h : blockFull st.1 i j = true
  · rw [if_pos h, if_pos h, Prod.mk.injEq]
    refine ⟨?_, rfl⟩
    funext p q
    simp [clearBlock, clearRegion, Prod.ext_iff]
  · rw [if_neg h, if_neg h]

theorem rowFull_congr_region : ∀ (c c' : Board) (i : Fin 9),
    (∀ p q, (fun p _ => p) p q = i → c p q = c' p q) → rowFull c i = rowFull c' i := by
  intro c c' i h
  unfold rowFull
  have hf : (fun j : Fin 9 => c i j) = fun j : Fin 9 => c' i j :=
    funext fun j => h i j rfl
  rw [hf]

theorem colFull_congr_region : ∀ (c c' : Board) (j : Fin 9),
    (∀ p q, (fun _ q => q) p q = j → c p q = c' p q) → colFull c j = colFull c' j := by
  intro c c' j h
  unfold colFull
  have hf : (fun i : Fin 9 => c i j) = fun i : Fin 9 => c' i j :=
    funext fun i => h i j rfl
  rw [hf]

theorem blockFull_congr_region : ∀ (c c' : Board) (ij : Fin 3 × Fin 3),
    (∀ p q, (fun p q => (blockOf p, blockOf q)) p q = ij → c p q = c' p q) →
    (fun c ij => blockFull c ij.1 ij.2) c ij = (fun c ij => blockFull c ij.1 ij.2) c' ij := by
  intro c c' ij h
  obtain ⟨i, j⟩ := ij
  dsimp only
  unfold blockFull
  have hf : (fun k : Fin 3 => (List.finRange 3).all fun l => c (blockCell i k) (blockCell j l))
      = fun k : Fin 3 => (List.finRange 3).all fun l => c' (blockCell i k) (blockCell j l) := by
    funext k
    have hg : (fun l : Fin 3 => c (blockCell i k) (blockCell j l))
        = fun l : Fin 3 => c' (blockCell i k) (blockCell j l) := by
      funext l
      exact h (blockCell i k) (blockCell j l)
        (by dsimp only; rw [blockOf_blockCell, blockOf_blockCell])
    rw [hg]
  rw [hf]

theorem blockList_nodup : blockList.Nodup := by decide

theorem blockOf_mem (p q : Fin 9) : (blockOf p, blockOf q) ∈ blockList := by
  revert p q
  decide

/-- The row-clear loop clears exactly the rows that are full in the board it
starts from, awarding 9 per cleared row. -/
theorem rowPass_eq (b : Board) (sc : Nat) :
    rowPass (b, sc) = (clearFullRows b, sc + 9 * countFullRows b) := by
  unfold rowPass
  rw [rowStep_eq, regionFold_eq _ rowFull rowFull_congr_region _ (List.nodup_finRange 9)]
  rw [Prod.mk.injEq]
  refine ⟨?_, rfl⟩
  funext p q
  simp [clearFullRows, List.mem_finRange]

/-- The column-clear loop clears exactly the columns that are full in the
board it starts from, awarding 9 per cleared column. -/
theorem colPass_eq (b : Board) (sc : Nat) :
    colPass (b, sc) = (clearFullCols b, sc + 9 * countFullCols b) := by
  unfold colPass
  rw [colStep_eq, regionFold_eq _ colFull colFull_congr_region _ (List.nodup_finRange 9)]
  rw [Prod.mk.injEq]
  refine ⟨?_, rfl⟩
  funext p q
  simp [clearFullCols, List.mem_finRange]

/-- The block-clear loop clears exactly the blocks that are full in the board
it starts from, awarding 9 per cleared block. -/
theorem blockPass_eq (b : Board) (sc : Nat) :
    blockPass (b, sc) = (clearFullBlocks b, sc + 9 * countFullBlocks b) := by
  unfold blockPass
  rw [blockStep_eq, regionFold_eq _ _ blockFull_congr_region _ blockList_nodup]
  rw [Prod.mk.injEq]
  refine ⟨?_, rfl⟩
  funext p q
  simp [clearFullBlocks, blockOf_mem]

/-- Normal form of a legal placement: copy, then the three simultaneous
clears in pass order, each evaluated on the board left by the previous one,
with 9 points per cleared region. -/
theorem place_spec (s : Sudoku) (f : Shape) (h : s.legal = true) :
    s.place f =
      { board := clearFullBlocks (clearFullCols (clearFullRows (placeShape s.board s.curr))),
        score := s.score + 9 * countFullRows (placeShape s.board s.curr)
          + 9 * countFullCols (clearFullRows (placeShape s.board s.curr))
          + 9 * countFullBlocks (clearFullCols (clearFullRows (placeShape s.board s.curr))),
        curr := Piece.random f } := by
  unfold Sudoku.place
  rw [if_pos h, rowPass_eq, colPass_eq, blockPass_eq]

theorem bool_eq_of_iff {a b : Bool} (h : a = true ↔ b = true) : a = b := by
  cases a <;> cases b <;> simp_all

theorem setCell_true_apply (b : Board) (x0 y0 : Nat) (x y : Fin 9) :
    setCell b x0 y0 true x y = (b x y || decide (x.val = x0 ∧ y.val = y0)) := by
  unfold setCell
  by_cases h : x.val = x0 ∧ y.val = y0 <;> simp [h]

theorem placeShape_inner_apply (p : Piece) (i : Fin 3) (l : List (Fin 3)) (c : Board)
    (x y : Fin 9) :
    (l.foldl
      (fun acc2 j => if p.shape i j then setCell acc2 (p.x + i.val) (p.y + j.val) true else acc2)
      c) x y
    = (c x y ||
        decide (∃ j, j ∈ l ∧ p.shape i j = true ∧ x.val = p.x + i.val ∧ y.val = p.y + j.val)) := by
  induction l generalizing c with
  | nil => simp
  | cons j t ih =>
    rw [List.foldl_cons, ih]
    by_cases hs : p.shape i j = true
    · rw [if_pos hs, setCell_true_apply, Bool.or_assoc]
      congr 1
      apply bool_eq_of_iff
      rw [Bool.or_eq_true, decide_eq_true_eq, decide_eq_true_eq, decide_eq_true_eq]
      constructor
      · rintro (⟨hx, hy⟩ | ⟨j', hj', hrest⟩)
        · exact ⟨j, List.mem_cons_self j t, hs, hx, hy⟩
        · exact ⟨j', List.mem_cons_of_mem j hj', hrest⟩
      · rintro ⟨j', hj', hsh, hx, hy⟩
        rcases List.mem_cons.mp hj' with rfl | hjt
        · exact Or.inl ⟨hx, hy⟩
        · exact Or.inr ⟨j', hjt, hsh, hx, hy⟩
    · rw [if_neg hs]
      congr 1
      rw [decide_eq_decide]
      constructor
      · rintro ⟨j', hj', hrest⟩
        exact ⟨j', List.mem_cons_of_mem j hj', hrest⟩
      · rintro ⟨j', hj', hsh, hx, hy⟩
        rcases List.mem_cons.mp hj' with rfl | hjt
        · exact absurd hsh hs
        · exact ⟨j', hjt, hsh, hx, hy⟩

theorem placeShape_outer_apply (p : Piece) (l : List (Fin 3)) (c : Board) (x y : Fin 9) :
    (l.foldl
      (fun acc i =>
        (List.finRange 3).foldl
          (fun acc2 j =>
            if p.shape i j then setCell acc2 (p.x + i.val) (p.y + j.val) true else acc2)
          acc)
      c) x y
    = (c x y ||
        decide (∃ i, i ∈ l ∧ ∃ j : Fin 3,
          p.shape i j = true ∧ x.val = p.x + i.val ∧ y.val = p.y + j.val)) := by
  induction l generalizing c with
  | nil => simp
  | cons i t ih =>
    rw [List.foldl_cons, ih, placeShape_inner_apply, Bool.or_assoc]
    congr 1
    apply bool_eq_of_iff
    rw [Bool.or_eq_true, decide_eq_true_eq, decide_eq_true_eq, decide_eq_true_eq]
    constructor
    · rintro (⟨j, _, hsh, hx, hy⟩ | ⟨i', hi', hrest⟩)
      · exact ⟨i, List.mem_cons_self i t, j, hsh, hx, hy⟩
      · exact ⟨i', List.mem_cons_of_mem i hi', hrest⟩
    · rintro ⟨i', hi', j, hsh, hx, hy⟩
      rcases List.mem_cons.mp hi' with rfl | hit
      · exact Or.inl ⟨j, List.mem_finRange j, hsh, hx, hy⟩
      · exact Or.inr ⟨i', hit, j, hsh, hx, hy⟩

/-- The copy loop of place sets exactly the cells covered by an occupied
mask cell: it agrees with the spec-side description of the copy step. -/
theorem placeShape_eq_specCopy (b : Board) (p : Piece) : placeShape b p = specCopy b p := by
  funext x y
  unfold placeShape specCopy maskCovers
  rw [placeShape_outer_apply]
  congr 1
  rw [decide_eq_decide]
  constructor
  · rintro ⟨i, _, j, hsh, hx, hy⟩
    exact ⟨i, j, hsh, hx, hy⟩
  · rintro ⟨i, j, hsh, hx, hy⟩
    exact ⟨i, List.mem_finRange i, j, hsh, hx, hy⟩

/-! Clearing only unsets cells, and a region that is not full stays not
full when cells are unset. -/

theorem clearFullRows_le (b : Board) (p q : Fin 9) :
    clearFullRows b p q = true → b p q = true := by
  intro h
  unfold clearFullRows at h
  split at h
  · exact absurd h Bool.false_ne_true
  · exact h

theorem clearFullCols_le (b : Board) (p q : Fin 9) :
    clearFullCols b p q = true → b p q = true := by
  intro h
  unfold clearFullCols at h
  split at h
  · exact absurd h Bool.false_ne_true
  · exact h

theorem clearFullBlocks_le (b : Board) (p q : Fin 9) :
    clearFullBlocks b p q = true → b p q = true := by
  intro h
  unfold clearFullBlocks at h
  split at h
  · exact absurd h Bool.false_ne_true
  · exact h

theorem rowFull_mono {c b : Board} (hle : ∀ p q, c p q = true → b p q = true) (i : Fin 9) :
    rowFull c i = true → rowFull b i = true := by
  intro h
  rw [rowFull, List.all_eq_true] at h ⊢
  intro j hj
  exact hle i j (h j hj)

theorem colFull_mono {c b : Board} (hle : ∀ p q, c p q = true → b p q = true) (j : Fin 9) :
    colFull c j = true → colFull b j = true := by
  intro h
  rw [colFull, List.all_eq_true] at h ⊢
  intro i hi
  exact hle i j (h i hi)

theorem blockFull_mono {c b : Board} (hle : ∀ p q, c p q = true → b p q = true) (i j : Fin 3) :
    blockFull c i j = true → blockFull b i j = true := by
  intro h
  rw [blockFull, List.all_eq_true] at h ⊢
  intro k hk
  have hk' := h k hk
  rw [List.all_eq_true] at hk' ⊢
  intro l hl
  exact hle (blockCell i k) (blockCell j l) (hk' l hl)

/-! Each simultaneous clear leaves no full region of its own kind. -/

theorem rowFull_clearFullRows (b : Board) (i : Fin 9) :
    rowFull (clearFullRows b) i = false := by
  by_cases h : rowFull b i = true
  · refine Bool.eq_false_iff.mpr fun hall => ?_
    rw [rowFull, List.all_eq_true] at hall
    have h0 := hall 0 (List.mem_finRange 0)
    unfold clearFullRows at h0
    rw [if_pos h] at h0
    exact Bool.false_ne_true h0
  · have hf : (fun j : Fin 9 => clearFullRows b i j) = fun j : Fin 9 => b i j := by
      funext j
      unfold clearFullRows
      rw [if_neg h]
    rw [rowFull, hf, ← rowFull]
    exact Bool.eq_false_iff.mpr h

theorem colFull_clearFullCols (b : Board) (j : Fin 9) :
    colFull (clearFullCols b) j = false := by
  by_cases h : colFull b j = true
  · refine Bool.eq_false_iff.mpr fun hall => ?_
    rw [colFull, List.all_eq_true] at hall
    have h0 := hall 0 (List.mem_finRange 0)
    unfold clearFullCols at h0
    rw [if_pos h] at h0
    exact Bool.false_ne_true h0
  · have hf : (fun i : Fin 9 => clearFullCols b i j) = fun i : Fin 9 => b i j := by
      funext i
      unfold clearFullCols
      rw [if_neg h]
    rw [colFull, hf, ← colFull]
    exact Bool.eq_false_iff.mpr h

theorem blockFull_clearFullBlocks (b : Board) (i j : Fin 3) :
    blockFull (clearFullBlocks b) i j = false := by
  by_cases h : blockFull b i j = true
  · refine Bool.eq_false_iff.mpr fun hall => ?_
    rw [blockFull, List.all_eq_true] at hall
    have h0 := hall 0 (List.mem_finRange 0)
    rw [List.all_eq_true] at h0
    have h00 := h0 0 (List.mem_finRange 0)
    unfold clearFullBlocks at h00
    rw [blockOf_blockCell, blockOf_blockCell, if_pos h] at h00
    exact Bool.false_ne_true h00
  · have hf : ∀ k l : Fin 3,
        clearFullBlocks b (blockCell i k) (blockCell j l) = b (blockCell i k) (blockCell j l) := by
      intro k l
      unfold clearFullBlocks
      rw [blockOf_blockCell, blockOf_blockCell, if_neg h]
    have : blockFull (clearFullBlocks b) i j = blockFull b i j := by
      unfold blockFull
      have hout : (fun k : Fin 3 => (List.finRange 3).all fun l =>
            clearFullBlocks b (blockCell i k) (blockCell j l))
          = fun k : Fin 3 => (List.finRange 3).all fun l => b (blockCell i k) (blockCell j l) := by
        funext k
        have hin : (fun l : Fin 3 => clearFullBlocks b (blockCell i k) (blockCell j l))
            = fun l : Fin 3 => b (blockCell i k) (blockCell j l) := funext fun l => hf k l
        rw [hin]
      rw [hout]
    rw [this]
    exact Bool.eq_false_iff.mpr h

/-! Counting helpers for boards with a known set of full regions. -/

theorem filter_length_one_unique {α : Type} (l : List α) (p : α → Bool)
    (h : (l.filter p).length = 1) (a b : α)
    (ha : a ∈ l) (hpa : p a = true) (hb : b ∈ l) (hpb : p b = true) : a = b := by
  rw [List.length_eq_one] at h
  obtain ⟨x, hx⟩ := h
  have h1 : a ∈ l.filter p := List.mem_filter.mpr ⟨ha, hpa⟩
  have h2 : b ∈ l.filter p := List.mem_filter.mpr ⟨hb, hpb⟩
  rw [hx] at h1 h2
  exact (List.mem_singleton.mp h1).trans (List.mem_singleton.mp h2).symm

theorem filter_length_zero {α : Type} (l : List α) (p : α → Bool)
    (h : ∀ x ∈ l, p x = false) : (l.filter p).length = 0 := by
  induction l with
  | nil => rfl
  | cons b t ih =>
    rw [List.filter_cons, if_neg (by simp [h b (List.mem_cons_self b t)])]
    exact ih fun x hx => h x (List.mem_cons_of_mem b hx)

theorem filter_length_of_unique {α : Type} (l : List α) (hl : l.Nodup) (p : α → Bool) (a : α)
    (ha : a ∈ l) (huniq : ∀ x ∈ l, p x = true → x = a) :
    (l.filter p).length = if p a = true then 1 else 0 := by
  induction l with
  | nil => cases ha
  | cons b t ih =>
    obtain ⟨hbt, ht⟩ := List.nodup_cons.mp hl
    rcases List.mem_cons.mp ha with rfl | hat
    · have htz : (t.filter p).length = 0 := by
        apply filter_length_zero
        intro x hx
        cases hpx : p x
        · rfl
        · exact absurd (huniq x (List.mem_cons_of_mem a hx) hpx ▸ hx) hbt
      rw [List.filter_cons]
      by_cases hpa : p a = true
      · rw [if_pos hpa, if_pos hpa, List.length_cons, htz]
      · rw [if_neg hpa, if_neg hpa, htz]
    · have hpb : p b = false := by
        cases hpb : p b
        · rfl
        · exact absurd (by rw [huniq b (List.mem_cons_self b t) hpb]; exact hat) hbt
      rw [List.filter_cons, if_neg (by simp [hpb])]
      exact ih ht hat fun x hx hpx => huniq x (List.mem_cons_of_mem b hx) hpx

/-! Shift lemmas and the reachability invariant. -/

theorem shift_Left_x (s : Sudoku) : (s.shift .Left).curr.x = s.curr.x - 1 := by
  simp only [Sudoku.shift]
  split
  · rfl
  · omega

theorem shift_Up_y (s : Sudoku) : (s.shift .Up).curr.y = s.curr.y - 1 := by
  simp only [Sudoku.shift]
  split
  · rfl
  · omega

theorem shift_Right_x (s : Sudoku) (h : s.curr.x ≤ 6) :
    (s.shift .Right).curr.x = min (s.curr.x + 1) 6 := by
  simp only [Sudoku.shift]
  split <;> (try simp) <;> omega

theorem shift_Down_y (s : Sudoku) (h : s.curr.y ≤ 6) :
    (s.shift .Down).curr.y = min (s.curr.y + 1) 6 := by
  simp only [Sudoku.shift]
  split <;> (try simp) <;> omega

/-- Position bounds hold in every reachable state. -/
theorem reachable_bounds (s : Sudoku) (h : Reachable s) :
    s.curr.x ≤ 6 ∧ s.curr.y ≤ 6 := by
  induction h with
  | new shape => exact ⟨Nat.zero_le 6, Nat.zero_le 6⟩
  | shift s d _ ih =>
    obtain ⟨ihx, ihy⟩ := ih
    cases d with
    | Up => by_cases h : s.curr.y > 0 <;> simp [Sudoku.shift, h] <;> omega
    | Down => by_cases h : s.curr.y < 9 - 3 <;> simp [Sudoku.shift, h] <;> omega
    | Left => by_cases h : s.curr.x > 0 <;> simp [Sudoku.shift, h] <;> omega
    | Right => by_cases h : s.curr.x < 9 - 3 <;> simp [Sudoku.shift, h] <;> omega
  | place s f _ ih =>
    unfold Sudoku.place
    split
    · exact ⟨Nat.zero_le 6, Nat.zero_le 6⟩
    · exact ih

theorem iterate_Left_x (s : Sudoku) (n : Nat) :
    ((fun t => t.shift .Left)^[n] s).curr.x = s.curr.x - n := by
  induction n with
  | zero => simp
  | succ n ih =>
    rw [Function.iterate_succ_apply']
    rw [shift_Left_x, ih]
    omega

theorem iterate_Up_y (s : Sudoku) (n : Nat) :
    ((fun t => t.shift .Up)^[n] s).curr.y = s.curr.y - n := by
  induction n with
  | zero => simp
  | succ n ih =>
    rw [Function.iterate_succ_apply']
    rw [shift_Up_y, ih]
    omega

theorem iterate_Right_x (s : Sudoku) (n : Nat) (h : s.curr.x ≤ 6) :
    ((fun t => t.shift .Right)^[n] s).curr.x = min (s.curr.x + n) 6 := by
  induction n with
  | zero => simp; omega
  | succ n ih =>
    have hb : ((fun t => t.shift .Right)^[n] s).curr.x ≤ 6 := by rw [ih]; omega
    rw [Function.iterate_succ_apply']
    rw [shift_Right_x _ hb, ih]
    omega

theorem iterate_Down_y (s : Sudoku) (n : Nat) (h : s.curr.y ≤ 6) :
    ((fun t => t.shift .Down)^[n] s).curr.y = min (s.curr.y + n) 6 := by
  induction n with
  | zero => simp; omega
  | succ n ih =>
    have hb : ((fun t => t.shift .Down)^[n] s).curr.y ≤ 6 := by rw [ih]; omega
    rw [Function.iterate_succ_apply']
    rw [shift_Down_y _ hb, ih]
    omega

/-- C3: legal() returns true iff every occupied cell of the active piece's
3x3 mask maps, at the piece's current (x, y) offset, to an unoccupied board
cell.  The embedding of legal() is a pure function of the state: it reads
state only and mutates nothing. -/
theorem legal_iff_no_overlap (s : Sudoku) (hx : s.curr.x ≤ 6) (hy : s.curr.y ≤ 6) :
    s.legal = true ↔ ∀ i j : Fin 3, s.curr.shape i j = true →
      getCell s.board (s.curr.x + i.val) (s.curr.y + j.val) = false := by
  unfold Sudoku.legal
  rw [List.all_eq_true]
  constructor
  · intro h i j hs
    have hi := h i (List.mem_finRange i)
    rw [List.all_eq_true] at hi
    have hj := hi j (List.mem_finRange j)
    cases hcell : getCell s.board (s.curr.x + i.val) (s.curr.y + j.val)
    · rfl
    · rw [hs, hcell] at hj
      simp at hj
  · intro h i _
    rw [List.all_eq_true]
    intro j _
    cases hs : s.curr.shape i j
    · simp
    · rw [h i j hs]
      simp

theorem legal_iff_no_overlap_witness : (Sudoku.new wShape1).legal = true :=
  (legal_iff_no_overlap (Sudoku.new wShape1) (by decide) (by decide)).mpr (by decide)

/-- C4: when legal() is false, place() is a complete no-op: the board, the
score and the active piece (mask and position) are all unchanged. -/
theorem place_illegal_noop (s : Sudoku) (f : Shape)
    (hx : s.curr.x ≤ 6) (hy : s.curr.y ≤ 6) (hleg : s.legal = false) :
    s.place f = s := by
  unfold Sudoku.place
  rw [if_neg (by rw [hleg]; exact Bool.false_ne_true)]

theorem place_illegal_noop_witness : exS10.place wShapeT = exS10 :=
  place_illegal_noop exS10 wShapeT (by decide) (by decide) (by decide)

/-- C6: shift only updates the active piece's position: board, score and
mask are unchanged, and the new position is a function of the direction and
the old position alone (shift never reads the board or the score). -/
theorem shift_frame (s : Sudoku) (d : Direction) :
    (s.shift d).board = s.board ∧ (s.shift d).score = s.score
    ∧ (s.shift d).curr.shape = s.curr.shape
    ∧ (s.shift d).curr.x = shiftX d s.curr.x
    ∧ (s.shift d).curr.y = shiftY d s.curr.y := by
  cases d with
  | Up => by_cases h : s.curr.y > 0 <;> simp [Sudoku.shift, shiftX, shiftY, h]
  | Down => by_cases h : s.curr.y < 9 - 3 <;> simp [Sudoku.shift, shiftX, shiftY, h]
  | Left => by_cases h : s.curr.x > 0 <;> simp [Sudoku.shift, shiftX, shiftY, h]
  | Right => by_cases h : s.curr.x < 9 - 3 <;> simp [Sudoku.shift, shiftX, shiftY, h]

/-- C9: a successful place() installs a freshly generated piece, whose
position is exactly (0, 0); an unsuccessful place() leaves the piece as is. -/
theorem piece_regeneration (s : Sudoku) (f : Shape) :
    ((Piece.random f).x = 0 ∧ (Piece.random f).y = 0)
    ∧ (s.legal = true → (s.place f).curr = Piece.random f)
    ∧ (s.legal = false → (s.place f).curr = s.curr) := by
  refine ⟨⟨rfl, rfl⟩, ?_, ?_⟩
  · intro h
    unfold Sudoku.place
    rw [if_pos h]
  · intro h
    unfold Sudoku.place
    rw [if_neg (by rw [h]; exact Bool.false_ne_true)]

theorem piece_regeneration_witness :
    ((Sudoku.new wShape1).place wShapeT).curr = Piece.random wShapeT
    ∧ (exS10.place wShapeT).curr = exS10.curr :=
  ⟨(piece_regeneration (Sudoku.new wShape1) wShapeT).2.1 (by decide),
   (piece_regeneration exS10 wShapeT).2.2 (by decide)⟩

/-- C5: in every reachable state the active piece's position satisfies
0 <= x <= 6 and 0 <= y <= 6 (the lower bounds are inherent to Nat); a shift
moves the position by exactly one cell, clamped to [0, 6], silently
no-opping at the boundary; and iterating shift Left drives x to exactly 0
(x - n), iterating shift Right drives x to exactly 6 (min (x + n) 6), and
symmetrically for y with Up and Down. -/
theorem piece_position_clamped (s : Sudoku) (h : Reachable s) :
    (s.curr.x ≤ 6 ∧ s.curr.y ≤ 6)
    ∧ ((s.shift .Left).curr.x = s.curr.x - 1
      ∧ (s.shift .Right).curr.x = min (s.curr.x + 1) 6
      ∧ (s.shift .Up).curr.y = s.curr.y - 1
      ∧ (s.shift .Down).curr.y = min (s.curr.y + 1) 6)
    ∧ (∀ n, ((fun t => t.shift .Left)^[n] s).curr.x = s.curr.x - n)
    ∧ (∀ n, ((fun t => t.shift .Right)^[n] s).curr.x = min (s.curr.x + n) 6)
    ∧ (∀ n, ((fun t => t.shift .Up)^[n] s).curr.y = s.curr.y - n)
    ∧ (∀ n, ((fun t => t.shift .Down)^[n] s).curr.y = min (s.curr.y + n) 6) := by
  obtain ⟨hx, hy⟩ := reachable_bounds s h
  exact ⟨⟨hx, hy⟩,
    ⟨shift_Left_x s, shift_Right_x s hx, shift_Up_y s, shift_Down_y s hy⟩,
    fun n => iterate_Left_x s n, fun n => iterate_Right_x s n hx,
    fun n => iterate_Up_y s n, fun n => iterate_Down_y s n hy⟩

theorem piece_position_clamped_witness :
    ((Sudoku.new wShape1).curr.x ≤ 6 ∧ (Sudoku.new wShape1).curr.y ≤ 6)
    ∧ ((fun t => t.shift .Left)^[9] (Sudoku.new wShape1)).curr.x
        = (Sudoku.new wShape1).curr.x - 9
    ∧ ((fun t => t.shift .Right)^[9] (Sudoku.new wShape1)).curr.x
        = min ((Sudoku.new wShape1).curr.x + 9) 6 := by
  have h := piece_position_clamped (Sudoku.new wShape1) (Reachable.new wShape1)
  exact ⟨h.1, h.2.2.1 9, h.2.2.2.1 9⟩

/-- C8: the score never decreases: shift leaves it unchanged, and place()
adds exactly 9 points per row cleared by the row pass, per column cleared by
the column pass and per block cleared by the block pass (several awards can
happen in one call); an illegal place() leaves it unchanged. -/
theorem score_monotone_award (s : Sudoku) (f : Shape)
    (hx : s.curr.x ≤ 6) (hy : s.curr.y ≤ 6) :
    (∀ d, (s.shift d).score = s.score)
    ∧ s.score ≤ (s.place f).score
    ∧ (s.legal = true → (s.place f).score =
        s.score + 9 * countFullRows (placeShape s.board s.curr)
          + 9 * countFullCols (clearFullRows (placeShape s.board s.curr))
          + 9 * countFullBlocks (clearFullCols (clearFullRows (placeShape s.board s.curr))))
    ∧ (s.legal = false → (s.place f).score = s.score) := by
  refine ⟨?_, ?_, ?_, ?_⟩
  · intro d
    cases d <;> (simp only [Sudoku.shift]; split <;> rfl)
  · by_cases hleg : s.legal = true
    · rw [place_spec s f hleg]
      dsimp only
      omega
    · unfold Sudoku.place
      rw [if_neg hleg]
  · intro hleg
    rw [place_spec s f hleg]
  · intro hleg
    unfold Sudoku.place
    rw [if_neg (by rw [hleg]; exact Bool.false_ne_true)]

theorem score_monotone_award_witness :
    ((Sudoku.new wShape1).shift .Down).score = (Sudoku.new wShape1).score
    ∧ (Sudoku.new wShape1).score ≤ ((Sudoku.new wShape1).place wShapeT).score
    ∧ ((Sudoku.new wShape1).place wShapeT).score =
        (Sudoku.new wShape1).score
          + 9 * countFullRows (placeShape (Sudoku.new wShape1).board (Sudoku.new wShape1).curr)
          + 9 * countFullCols (clearFullRows
              (placeShape (Sudoku.new wShape1).board (Sudoku.new wShape1).curr))
          + 9 * countFullBlocks (clearFullCols (clearFullRows
              (placeShape (Sudoku.new wShape1).board (Sudoku.new wShape1).curr))) := by
  have h := score_monotone_award (Sudoku.new wShape1) wShapeT (by decide) (by decide)
  exact ⟨h.1 .Down, h.2.1, h.2.2.1 (by decide)⟩

/-- C2: a legal place() proceeds in this exact order: it first copies every
occupied mask cell into the board (specCopy), then the row pass clears every
fully occupied row of that board, then the column pass clears every column
fully occupied in the board left by the row pass, then the block pass clears
every block fully occupied in the board left by the first two passes; each
pass is evaluated against the state left by the previous pass, with 9 points
per cleared region. -/
theorem place_pass_order (s : Sudoku) (f : Shape)
    (hx : s.curr.x ≤ 6) (hy : s.curr.y ≤ 6) (hleg : s.legal = true) :
    s.place f =
      { board := clearFullBlocks (clearFullCols (clearFullRows (specCopy s.board s.curr))),
        score := s.score + 9 * countFullRows (specCopy s.board s.curr)
          + 9 * countFullCols (clearFullRows (specCopy s.board s.curr))
          + 9 * countFullBlocks (clearFullCols (clearFullRows (specCopy s.board s.curr))),
        curr := Piece.random f } := by
  rw [place_spec s f hleg, placeShape_eq_specCopy]

theorem place_pass_order_witness :
    (Sudoku.new wShape1).place wShapeT =
      { board := clearFullBlocks (clearFullCols (clearFullRows
          (specCopy (Sudoku.new wShape1).board (Sudoku.new wShape1).curr))),
        score := (Sudoku.new wShape1).score
          + 9 * countFullRows (specCopy (Sudoku.new wShape1).board (Sudoku.new wShape1).curr)
          + 9 * countFullCols (clearFullRows
              (specCopy (Sudoku.new wShape1).board (Sudoku.new wShape1).curr))
          + 9 * countFullBlocks (clearFullCols (clearFullRows
              (specCopy (Sudoku.new wShape1).board (Sudoku.new wShape1).curr))),
        curr := Piece.random wShapeT } :=
  place_pass_order (Sudoku.new wShape1) wShapeT (by decide) (by decide) (by decide)

/-- C7: if row 3 has exactly 8 of its 9 cells occupied, the active piece has
a single occupied mask cell which legally fills the 9th cell of row 3, and
no other row, no column and no block is complete after the copy step, then
place() leaves row 3 entirely unoccupied and raises the score by exactly 9. -/
theorem single_row_clear (s : Sudoku) (f : Shape)
    (hx : s.curr.x ≤ 6) (hy : s.curr.y ≤ 6) (hleg : s.legal = true)
    (h8 : ((List.finRange 9).filter fun q => s.board 3 q).length = 8)
    (hmask : ∃ i0 j0 : Fin 3, s.curr.shape i0 j0 = true ∧
      ∀ i j : Fin 3, s.curr.shape i j = true → i = i0 ∧ j = j0)
    (hr : rowFull (placeShape s.board s.curr) 3 = true)
    (hro : ∀ i : Fin 9, i ≠ 3 → rowFull (placeShape s.board s.curr) i = false)
    (hco : ∀ j : Fin 9, colFull (placeShape s.board s.curr) j = false)
    (hbo : ∀ i j : Fin 3, blockFull (placeShape s.board s.curr) i j = false) :
    (∀ q : Fin 9, (s.place f).board 3 q = false)
    ∧ (s.place f).score = s.score + 9 := by
  rw [place_spec s f hleg]
  dsimp only
  have hcr : countFullRows (placeShape s.board s.curr) = 1 := by
    unfold countFullRows
    rw [filter_length_of_unique _ (List.nodup_finRange 9) _ 3 (List.mem_finRange 3)]
    · rw [if_pos hr]
    · intro x _ hpx
      by_contra hne
      exact Bool.false_ne_true ((hro x hne) ▸ hpx)
  have hb2 : ∀ q, clearFullRows (placeShape s.board s.curr) 3 q = false := by
    intro q
    unfold clearFullRows
    rw [if_pos hr]
  have hcolsfalse : ∀ j, colFull (clearFullRows (placeShape s.board s.curr)) j = false := by
    intro j
    cases hcf : colFull (clearFullRows (placeShape s.board s.curr)) j
    · rfl
    · have h2 := colFull_mono (clearFullRows_le (placeShape s.board s.curr)) j hcf
      exact absurd h2 (by rw [hco j]; exact Bool.false_ne_true)
  have hb3 : clearFullCols (clearFullRows (placeShape s.board s.curr))
      = clearFullRows (placeShape s.board s.curr) := by
    funext p q
    unfold clearFullCols
    rw [hcolsfalse q]
    simp
  have hblocksfalse : ∀ i j : Fin 3,
      blockFull (clearFullRows (placeShape s.board s.curr)) i j = false := by
    intro i j
    cases hbf : blockFull (clearFullRows (placeShape s.board s.curr)) i j
    · rfl
    · have h2 := blockFull_mono (clearFullRows_le (placeShape s.board s.curr)) i j hbf
      exact absurd h2 (by rw [hbo i j]; exact Bool.false_ne_true)
  have hcc : countFullCols (clearFullRows (placeShape s.board s.curr)) = 0 :=
    filter_length_zero _ _ fun j _ => hcolsfalse j
  have hcb : countFullBlocks (clearFullCols (clearFullRows (placeShape s.board s.curr))) = 0 := by
    rw [hb3]
    exact filter_length_zero _ _ fun ij _ => hblocksfalse ij.1 ij.2
  have hb4 : clearFullBlocks (clearFullRows (placeShape s.board s.curr))
      = clearFullRows (placeShape s.board s.curr) := by
    funext p q
    unfold clearFullBlocks
    rw [hblocksfalse (blockOf p) (blockOf q)]
    simp
  refine ⟨?_, ?_⟩
  · intro q
    rw [hb3, hb4]
    exact hb2 q
  · rw [hcr, hcc, hcb]

theorem single_row_clear_witness :
    (∃ i0 j0 : Fin 3, exC7.curr.shape i0 j0 = true ∧
      ∀ i j : Fin 3, exC7.curr.shape i j = true → i = i0 ∧ j = j0)
    ∧ (exC7.place wShapeT).board 3 0 = false
    ∧ (exC7.place wShapeT).score = exC7.score + 9 := by
  have h := single_row_clear exC7 wShapeT (by decide) (by decide) (by decide) (by decide)
    (by decide) (by decide) (by decide) (by decide) (by decide)
  exact ⟨by decide, h.1 0, h.2⟩

/-- C1 counterexample: a concrete board and piece for which committing the
piece completes one full row (row 0), one full column (column 0) and one
full block (block (0,0)) at once, and exactly one of each; yet place()
raises the score by 9 (the row award only), not 27, and leaves cell (1, 0)
of the completed column occupied. -/
theorem simultaneous_clear_counterexample :
    exS1.legal = true
    ∧ rowFull (placeShape exS1.board exS1.curr) 0 = true
    ∧ colFull (placeShape exS1.board exS1.curr) 0 = true
    ∧ blockFull (placeShape exS1.board exS1.curr) 0 0 = true
    ∧ countFullRows (placeShape exS1.board exS1.curr) = 1
    ∧ countFullCols (placeShape exS1.board exS1.curr) = 1
    ∧ countFullBlocks (placeShape exS1.board exS1.curr) = 1
    ∧ (exS1.place wShapeT).score = exS1.score + 9
    ∧ ((exS1.place wShapeT).score = exS1.score + 27 → False)
    ∧ (exS1.place wShapeT).board 1 0 = true := by
  decide

/-- C1 amended: when a legal placement completes exactly one full row r,
one full column c and one full block B at once, place() awards 9 for the
row and clears it; the column, which loses cell (r, c) to the row clear,
is no longer full when the column pass runs and is not cleared; the block
is cleared for 9 more exactly when it is still fully occupied after the row
pass; so the score rises by 9 or 18, never 27; cells outside the cleared
row and the completed block keep their post-copy value. -/
theorem simultaneous_clear_amended (s : Sudoku) (f : Shape) (r c : Fin 9) (bi bj : Fin 3)
    (hx : s.curr.x ≤ 6) (hy : s.curr.y ≤ 6) (hleg : s.legal = true)
    (hr : rowFull (placeShape s.board s.curr) r = true)
    (hc : colFull (placeShape s.board s.curr) c = true)
    (hb : blockFull (placeShape s.board s.curr) bi bj = true)
    (hur : countFullRows (placeShape s.board s.curr) = 1)
    (huc : countFullCols (placeShape s.board s.curr) = 1)
    (hub : countFullBlocks (placeShape s.board s.curr) = 1) :
    ((s.place f).score = s.score + 9
        + (if blockFull (clearFullRows (placeShape s.board s.curr)) bi bj = true then 9 else 0))
    ∧ (s.place f).score ≠ s.score + 27
    ∧ (∀ q, (s.place f).board r q = false)
    ∧ colFull (clearFullRows (placeShape s.board s.curr)) c = false
    ∧ (∀ p q : Fin 9, p ≠ r → (blockOf p, blockOf q) ≠ (bi, bj) →
        (s.place f).board p q = placeShape s.board s.curr p q) := by
  rw [place_spec s f hleg]
  dsimp only
  have hb2r : ∀ q, clearFullRows (placeShape s.board s.curr) r q = false := by
    intro q
    unfold clearFullRows
    rw [if_pos hr]
  have hcolsfalse : ∀ j, colFull (clearFullRows (placeShape s.board s.curr)) j = false := by
    intro j
    refine Bool.eq_false_iff.mpr fun hcf => ?_
    have h2 := colFull_mono (clearFullRows_le (placeShape s.board s.curr)) j hcf
    have hjc : j = c := filter_length_one_unique _ _ huc j c
      (List.mem_finRange j) h2 (List.mem_finRange c) hc
    subst hjc
    rw [colFull, List.all_eq_true] at hcf
    have hrc := hcf r (List.mem_finRange r)
    rw [hb2r j] at hrc
    exact Bool.false_ne_true hrc
  have hb3 : clearFullCols (clearFullRows (placeShape s.board s.curr))
      = clearFullRows (placeShape s.board s.curr) := by
    funext p q
    unfold clearFullCols
    rw [hcolsfalse q]
    simp
  have hcc : countFullCols (clearFullRows (placeShape s.board s.curr)) = 0 :=
    filter_length_zero _ _ fun j _ => hcolsfalse j
  have hpairmem : ∀ ij : Fin 3 × Fin 3, ij ∈ blockList := by decide
  have hbuniq : ∀ x : Fin 3 × Fin 3,
      blockFull (placeShape s.board s.curr) x.1 x.2 = true → x = (bi, bj) := by
    intro x hxf
    exact filter_length_one_unique blockList _ hub x (bi, bj)
      (hpairmem x) hxf (hpairmem (bi, bj)) hb
  have hcb : countFullBlocks (clearFullRows (placeShape s.board s.curr))
      = if blockFull (clearFullRows (placeShape s.board s.curr)) bi bj = true then 1 else 0 := by
    unfold countFullBlocks
    exact filter_length_of_unique blockList blockList_nodup _ (bi, bj) (hpairmem (bi, bj))
      fun x _ hpx => hbuniq x (blockFull_mono (clearFullRows_le _) x.1 x.2 hpx)
  have hblockonly : ∀ p q : Fin 9, (blockOf p, blockOf q) ≠ (bi, bj) →
      blockFull (clearFullRows (placeShape s.board s.curr)) (blockOf p) (blockOf q) = false := by
    intro p q hne
    refine Bool.eq_false_iff.mpr fun hbf => ?_
    exact hne (hbuniq (blockOf p, blockOf q)
      (blockFull_mono (clearFullRows_le _) (blockOf p) (blockOf q) hbf))
  have hrowonly : ∀ p : Fin 9, p ≠ r → ∀ q,
      clearFullRows (placeShape s.board s.curr) p q = placeShape s.board s.curr p q := by
    intro p hp q
    unfold clearFullRows
    rw [if_neg fun hf => hp (filter_length_one_unique _ _ hur p r
      (List.mem_finRange p) hf (List.mem_finRange r) hr)]
  refine ⟨?_, ?_, ?_, hcolsfalse c, ?_⟩
  · rw [hb3, hur, hcc, hcb]
    by_cases hX : blockFull (clearFullRows (placeShape s.board s.curr)) bi bj = true
    · rw [if_pos hX, if_pos hX]
    · rw [if_neg hX, if_neg hX]
  · rw [hb3, hur, hcc, hcb]
    by_cases hX : blockFull (clearFullRows (placeShape s.board s.curr)) bi bj = true
    · rw [if_pos hX]
      omega
    · rw [if_neg hX]
      omega
  · intro q
    rw [hb3]
    refine Bool.eq_false_iff.mpr fun htr => ?_
    have h2 := clearFullBlocks_le _ _ _ htr
    rw [hb2r q] at h2
    exact Bool.false_ne_true h2
  · intro p q hp hbne
    rw [hb3]
    unfold clearFullBlocks
    rw [hblockonly p q hbne, if_neg Bool.false_ne_true]
    exact hrowonly p hp q

theorem simultaneous_clear_amended_witness :
    (exS1.place wShapeT).score = exS1.score + 9
      + (if blockFull (clearFullRows (placeShape exS1.board exS1.curr)) 0 0 = true then 9 else 0)
    ∧ (exS1.place wShapeT).score ≠ exS1.score + 27
    ∧ (exS1.place wShapeT).board 0 5 = false
    ∧ colFull (clearFullRows (placeShape exS1.board exS1.curr)) 0 = false
    ∧ (exS1.place wShapeT).board 5 5 = placeShape exS1.board exS1.curr 5 5 := by
  have h := simultaneous_clear_amended exS1 wShapeT 0 0 0 0 (by decide) (by decide) (by decide)
    (by decide) (by decide) (by decide) (by decide) (by decide) (by decide)
  exact ⟨h.1, h.2.1, h.2.2.1 5, h.2.2.2.1, h.2.2.2.2 5 5 (by decide) (by decide)⟩

/-- C10 counterexample: place() on an illegal position is a no-op, so a
board that already has a fully occupied row keeps it after place()
returns; the claim fails for such an input state. -/
theorem no_full_region_counterexample :
    exS10.legal = false ∧ rowFull (exS10.place wShapeT).board 0 = true := by
  decide

/-- C10 amended: after a place() call on a legal position, no row, no
column and no block of the board is fully occupied, and the resulting board
is pointwise below the post-copy board (clearing only unsets cells, so it
can never create a new fully occupied region). -/
theorem no_full_region_after_legal_place (s : Sudoku) (f : Shape)
    (hx : s.curr.x ≤ 6) (hy : s.curr.y ≤ 6) (hleg : s.legal = true) :
    (∀ i, rowFull (s.place f).board i = false)
    ∧ (∀ j, colFull (s.place f).board j = false)
    ∧ (∀ i j, blockFull (s.place f).board i j = false)
    ∧ (∀ p q, (s.place f).board p q = true → placeShape s.board s.curr p q = true) := by
  rw [place_spec s f hleg]
  dsimp only
  refine ⟨?_, ?_, ?_, ?_⟩
  · intro i
    refine Bool.eq_false_iff.mpr fun hrf => ?_
    have h2 := rowFull_mono (clearFullBlocks_le _) i hrf
    have h3 := rowFull_mono (clearFullCols_le _) i h2
    rw [rowFull_clearFullRows] at h3
    exact Bool.false_ne_true h3
  · intro j
    refine Bool.eq_false_iff.mpr fun hcf => ?_
    have h2 := colFull_mono (clearFullBlocks_le _) j hcf
    rw [colFull_clearFullCols] at h2
    exact Bool.false_ne_true h2
  · intro i j
    refine Bool.eq_false_iff.mpr fun hbf => ?_
    rw [blockFull_clearFullBlocks] at hbf
    exact Bool.false_ne_true hbf
  · intro p q hpq
    exact clearFullRows_le _ _ _ (clearFullCols_le _ _ _ (clearFullBlocks_le _ _ _ hpq))

theorem no_full_region_after_legal_place_witness :
    rowFull ((Sudoku.new wShape1).place wShapeT).board 0 = false
    ∧ colFull ((Sudoku.new wShape1).place wShapeT).board 0 = false
    ∧ blockFull ((Sudoku.new wShape1).place wShapeT).board 0 0 = false
    ∧ placeShape (Sudoku.new wShape1).board (Sudoku.new wShape1).curr 0 0 = true := by
  have h := no_full_region_after_legal_place (Sudoku.new wShape1) wShapeT
    (by decide) (by decide) (by decide)
  exact ⟨h.1 0, h.2.1 0, h.2.2.1 0 0, h.2.2.2 0 0 (by decide)⟩
